import Mathlib

/-!
Verification of the Mandelbrot fractal renderer (`src/main.cpp`).

Shallow embedding conventions:
* C++ `double` values are modelled by exact arithmetic: rationals (`ℚ`) for the
  ring operations and comparisons of the iteration loop, and real numbers (`ℝ`)
  where the code calls the transcendental library functions `log2`, `exp`, `cos`.
  IEEE-754 rounding is not modelled.
* `std::complex<double>` is modelled as `ℚ × ℚ` (real part, imaginary part);
  `std::norm` is the squared magnitude.
* C++ `int` is modelled as `ℤ`; the C++ conversions `int(double)` and integer
  division truncate toward zero (`qtrunc`, `Int.tdiv`).  Division of rationals
  by zero is `0` in the model (the C++ code would produce `inf`/`nan`; no claim
  depends on that case).
* The raster (`Image::data`) is modelled as a total function `ℤ → ℤ → Color`;
  a call `computePixel(x, y)` is modelled by the pure pixel value
  `computePixel M x y` together with a write `rasterUpdate`.
-/

/-- The `Color` struct of the source: an RGB color with 8-bit channels.
Channels are modelled as natural numbers (all values produced by the code lie
in `[0, 255]`). -/
structure Color where
  red : ℕ
  green : ℕ
  blue : ℕ
deriving DecidableEq

/-- The mutable state of the `Mandlebrot` struct of the source (including the
dimensions of its `Image image`).  `mSmooth` and `bSmooth` are doubles computed
with `log2`, hence modelled as reals. -/
structure Mandlebrot where
  width : ℤ
  height : ℤ
  colorList : List Color
  bodyColor : Color
  left : ℚ
  right : ℚ
  top : ℚ
  bottom : ℚ
  maxIterations : ℕ
  stopNorm : ℚ
  mSmooth : ℝ
  bSmooth : ℝ

/-- Truncation of a rational toward zero: the semantics of the C++ conversion
`int(double)` for in-range values. -/
def qtrunc (q : ℚ) : ℤ := if 0 ≤ q then ⌊q⌋ else -⌊-q⌋

/-- Complex multiplication on pairs, as performed by `std::complex<double>`:
`(a+bi)(c+di) = (ac − bd) + (ad + bc)i`. -/
def cmul (u v : ℚ × ℚ) : ℚ × ℚ := (u.1 * v.1 - u.2 * v.2, u.1 * v.2 + u.2 * v.1)

/-- `Mandlebrot::step`: the map `z ↦ z*z + c`. -/
def step (z c : ℚ × ℚ) : ℚ × ℚ := ((cmul z z).1 + c.1, (cmul z z).2 + c.2)

/-- `std::norm`: the squared magnitude `re² + im²`. -/
def qnorm (z : ℚ × ℚ) : ℚ := z.1 * z.1 + z.2 * z.2

/-- The orbit of the iteration started at `z = c` (the source initializes the
sequence at `c` itself, not at `0`): `orbit c n` is the value of `z` after `n`
executions of `z = step (z, c)`. -/
def orbit (c : ℚ × ℚ) : ℕ → ℚ × ℚ
  | 0 => c
  | n + 1 => step (orbit c n) c

/-- `log2` of the C math library: `Real.logb 2`. -/
noncomputable def log2 (x : ℝ) : ℝ := Real.logb 2 x

/-- The slope coefficient computed in the `Mandlebrot` constructor:
`mSmooth = 1 / log2 (0.5 * log2 (std::norm (step (1e5, 0))) / log2 (1e5))`. -/
noncomputable def mSmoothVal : ℝ :=
  1 / log2 (0.5 * log2 ((qnorm (step (100000, 0) (0, 0)) : ℚ) : ℝ) / log2 100000)

/-- The intercept coefficient computed in the `Mandlebrot` constructor:
`bSmooth = log2 (0.5 * log2 (stopNorm)) * mSmooth` with `stopNorm = 400`. -/
noncomputable def bSmoothVal : ℝ := log2 (0.5 * log2 ((400 : ℚ) : ℝ)) * mSmoothVal

/-- The `Mandlebrot` constructor: sizes the raster to
`int (resolution * (right - left))` by `int (resolution * (top - bottom))`,
sets the default body color `{0,0,0}`, `maxIterations = 100`, `stopNorm = 400`,
and precomputes the smoothing coefficients.  The color list starts empty
(`main` pushes the gradient stops afterwards). -/
noncomputable def mandlebrotInit (resolution l t r b : ℚ) : Mandlebrot where
  width := qtrunc (resolution * (r - l))
  height := qtrunc (resolution * (t - b))
  colorList := []
  bodyColor := ⟨0, 0, 0⟩
  left := l
  right := r
  top := t
  bottom := b
  maxIterations := 100
  stopNorm := 400
  mSmooth := mSmoothVal
  bSmooth := bSmoothVal

/-- The C++ constructor performs no validation of its parameters at all.  To
make the specification's claim about a "configuration error" statable, the
construction is wrapped in `Except`; faithful to the source, it always
succeeds. -/
noncomputable def mandlebrotInitE (resolution l t r b : ℚ) :
    Except String Mandlebrot :=
  .ok (mandlebrotInit resolution l t r b)

/-- The complex coordinate of pixel `(x, y)` computed by `computePixel`:
`c = (left + (right-left)*x/width, top + (bottom-top)*y/height)`. -/
def pixelC (M : Mandlebrot) (x y : ℤ) : ℚ × ℚ :=
  (M.left + (M.right - M.left) * (x : ℚ) / (M.width : ℚ),
   M.top + (M.bottom - M.top) * (y : ℚ) / (M.height : ℚ))

/-- The `while` loop of `computePixel`:
`while (std::norm(z) < stopNorm && iN++ < maxIterations) z = step (z,c);`.
Note the postfix increment: `iN` is incremented whenever the second test is
evaluated, so the loop can exit with `iN = maxIterations + 1`. -/
def loopGo (sN : ℚ) (maxIt : ℕ) (c : ℚ × ℚ) (iN : ℕ) (z : ℚ × ℚ) :
    ℕ × (ℚ × ℚ) :=
  if qnorm z < sN then
    (if h : iN < maxIt then loopGo sN maxIt c (iN + 1) (step z c)
     else (iN + 1, z))
  else (iN, z)
termination_by maxIt - iN
decreasing_by omega

/-- The loop of `computePixel` as executed: starts with `iN = 0` and `z = c`,
returns the final `(iN, z)`. -/
def computeIter (sN : ℚ) (maxIt : ℕ) (c : ℚ × ℚ) : ℕ × (ℚ × ℚ) :=
  loopGo sN maxIt c 0 c

/-- The value of the loop counter `iN` of `computePixel (x, y)` at loop exit. -/
def pixelExitCount (M : Mandlebrot) (x y : ℤ) : ℕ :=
  (computeIter M.stopNorm M.maxIterations (pixelC M x y)).1

/-- Truncation of a real toward zero: the semantics of the C++ conversion of a
`double` to an integer type.  (For `nC ≤ -1` the source's conversion to
`unsigned` is undefined behavior; the model totalizes it.) -/
noncomputable def rtrunc (x : ℝ) : ℤ := if 0 ≤ x then ⌊x⌋ else -⌊-x⌋

/-- The smoothed iteration count of the escaped branch of `computePixel`:
`fN = iN + bSmooth - mSmooth * log2 (0.5 * log2 (std::norm (z)))`. -/
noncomputable def escFN (M : Mandlebrot) (iN : ℕ) (z : ℚ × ℚ) : ℝ :=
  (iN : ℝ) + M.bSmooth - M.mSmooth * log2 (0.5 * log2 ((qnorm z : ℚ) : ℝ))

/-- The normalized gradient position of the escaped branch:
`nC = (1 - exp (-0.05 * fN)) * (colorList.size() - 1)`. -/
noncomputable def escNC (M : Mandlebrot) (iN : ℕ) (z : ℚ × ℚ) : ℝ :=
  (1 - Real.exp (-0.05 * escFN M iN z)) * ((M.colorList.length : ℝ) - 1)

/-- The first gradient index of the escaped branch:
`unsigned iC = unsigned (nC);` (conversion truncates toward zero). -/
noncomputable def escIC (M : Mandlebrot) (iN : ℕ) (z : ℚ × ℚ) : ℤ :=
  rtrunc (escNC M iN z)

/-- The cosine smoothing of a fractional mix value:
`mix = 0.5 * (1 + cos (M_PI * fC))`. -/
noncomputable def mixOf (fC : ℝ) : ℝ := 0.5 * (1 + Real.cos (Real.pi * fC))

/-- Conversion of a blended channel to a byte, `(unsigned char)(double)`; the
blended values are convex combinations of bytes, hence in `[0, 255]`, where
the conversion is truncation. -/
noncomputable def byteOf (v : ℝ) : ℕ := (⌊v⌋).toNat

/-- The gradient interpolation of the escaped branch as a function of the
normalized intensity `n`, for one channel selector `ch` (the source repeats
the same formula for `.red`, `.green`, `.blue`): select
`iC = unsigned (n)` (truncation, `rtrunc`), `fC = n - iC`, and blend
`colorList[iC]` and `colorList[iC+1]` with weight
`mix = 0.5 * (1 + cos (M_PI * fC))`.  This is the real-valued blended channel
before the final byte conversion.  List reads out of range are modelled by
`List.getD` with default `{0,0,0}` (out of range they are undefined behavior
in the source). -/
noncomputable def blendCh (L : List Color) (ch : Color → ℕ) (n : ℝ) : ℝ :=
  (ch (L.getD (rtrunc n).toNat ⟨0, 0, 0⟩) : ℝ) * mixOf (n - ((rtrunc n) : ℝ)) +
    (ch (L.getD ((rtrunc n).toNat + 1) ⟨0, 0, 0⟩) : ℝ) *
      (1 - mixOf (n - ((rtrunc n) : ℝ)))

/-- The color computed by the escaped (`else`) branch of `computePixel` from
the exit state `(iN, z)` of the loop: each channel is the cosine blend at
`nC`, converted to a byte. -/
noncomputable def escColor (M : Mandlebrot) (iN : ℕ) (z : ℚ × ℚ) : Color :=
  ⟨byteOf (blendCh M.colorList Color.red (escNC M iN z)),
   byteOf (blendCh M.colorList Color.green (escNC M iN z)),
   byteOf (blendCh M.colorList Color.blue (escNC M iN z))⟩

/-- The color written by `Mandlebrot::computePixel (x, y)`:
the body color if `iN >= maxIterations` at loop exit, otherwise the
interpolated gradient color computed from the exit state. -/
noncomputable def computePixel (M : Mandlebrot) (x y : ℤ) : Color :=
  if M.maxIterations ≤ (computeIter M.stopNorm M.maxIterations (pixelC M x y)).1
  then M.bodyColor
  else
    escColor M (computeIter M.stopNorm M.maxIterations (pixelC M x y)).1
      (computeIter M.stopNorm M.maxIterations (pixelC M x y)).2

/-- The raster of `Image`: a total function from coordinates to colors. -/
abbrev Raster : Type := ℤ → ℤ → Color

/-- A single write `image.data[y][x] = color`. -/
def rasterUpdate (R : Raster) (x y : ℤ) (col : Color) : Raster :=
  fun i j => if i = x ∧ j = y then col else R i j

/-- The pixel coordinates visited by `computeArea (l, t, r, b)`, in traversal
order (`y` from `t` to `b` outer, `x` from `l` to `r` inner). -/
def writeList (l t r b : ℤ) : List (ℤ × ℤ) :=
  (List.range (b - t).toNat).flatMap fun (j : ℕ) =>
    (List.range (r - l).toNat).map fun (i : ℕ) => (l + (i : ℤ), t + (j : ℤ))

/-- Execution of a sequence of `computePixel` calls at the given coordinates:
each call writes the pure pixel value into the raster. -/
noncomputable def applyWrites (M : Mandlebrot) (ws : List (ℤ × ℤ)) (R : Raster) : Raster :=
  ws.foldl (fun acc p => rasterUpdate acc p.1 p.2 (computePixel M p.1 p.2)) R

/-- `Mandlebrot::computeArea`. -/
noncomputable def computeArea (M : Mandlebrot) (l t r b : ℤ) (R : Raster) : Raster :=
  applyWrites M (writeList l t r b) R

/-- `Mandlebrot::computeSingleCore`: computes the whole image. -/
noncomputable def computeSingleCore (M : Mandlebrot) (R : Raster) : Raster :=
  computeArea M 0 0 M.width M.height R

/-- The writes performed for block `k` by a worker of `computeMultiCore`:
`computeArea ((k+0) * width / 100, 0, (k+1) * width / 100, height)`
(C++ `int` division truncates toward zero). -/
def blockWrites (M : Mandlebrot) (k : ℕ) : List (ℤ × ℤ) :=
  writeList (Int.tdiv ((k : ℤ) * M.width) 100) 0
    (Int.tdiv (((k : ℤ) + 1) * M.width) 100) M.height

/-- All writes performed by `computeMultiCore`, listed block by block: the
shared atomic counter hands each of the 100 blocks to exactly one worker, so
the multiset of writes of any execution is exactly this list; a concrete
execution interleaves the workers' writes, i.e. performs some permutation of
this list (blocks touch pairwise disjoint columns, see the partition
theorems). -/
def multiCoreWrites (M : Mandlebrot) : List (ℤ × ℤ) :=
  (List.range 100).flatMap fun k => blockWrites M k

/-- `Mandlebrot::computeMultiCore`, at the canonical serialization (blocks in
claim order). -/
noncomputable def computeMultiCore (M : Mandlebrot) (R : Raster) : Raster :=
  applyWrites M (multiCoreWrites M) R

/-- The start column of block `k` for a raster of nonnegative width `w`
(`k * w / 100` on nonnegative `int`s agrees with `ℕ` division). -/
def blockStart (w k : ℕ) : ℕ := k * w / 100

/-- A two-stop configuration whose viewport lies astronomically far from the
origin: the constructor is run with `left = 2 ^ 8388608`, a unit-width
viewport, and `main`-style pushes of two gradient stops.  Pixel `(0, 0)` has
`c = (2 ^ 8388608, 0)`, so it escapes immediately with
`|z|² = 2 ^ 16777216`. -/
noncomputable def farViewport : Mandlebrot :=
  { mandlebrotInit 1 ((2 : ℚ) ^ 8388608) 0 ((2 : ℚ) ^ 8388608 + 1) (-1) with
    colorList := [⟨0, 0, 40⟩, ⟨255, 255, 255⟩] }

/-- A two-stop configuration with `left = 21`: pixel `(0, 0)` has
`c = (21, 0)` and `|c|² = 441 ≥ 400`, so it escapes at once. -/
noncomputable def escapedTwoStop : Mandlebrot :=
  { mandlebrotInit 1 21 0 22 (-1) with
    colorList := [⟨0, 0, 40⟩, ⟨255, 255, 255⟩] }

/-! ### Characterization of the escape-time loop -/

theorem orbit_succ (c : ℚ × ℚ) (n : ℕ) : orbit c (n + 1) = step (orbit c n) c :=
  rfl

/-- Full characterization of the `while` loop of `computePixel`, by induction
on the remaining fuel `maxIt - iN`: started in a state consistent with the
orbit, it exits at the first index `k` (at or after `iN`) where the escape
test fails or the counter budget is exhausted; the exit counter is `k` on
escape and `k + 1` when the budget ran out. -/
theorem loopGo_char (sN : ℚ) (maxIt : ℕ) (c : ℚ × ℚ) :
    ∀ (d iN : ℕ) (z : ℚ × ℚ), maxIt - iN ≤ d → iN ≤ maxIt → z = orbit c iN →
      (∀ m, m < iN → qnorm (orbit c m) < sN) →
      ∃ k, iN ≤ k ∧ k ≤ maxIt ∧
        loopGo sN maxIt c iN z =
          (if sN ≤ qnorm (orbit c k) then k else k + 1, orbit c k) ∧
        (∀ m, m < k → qnorm (orbit c m) < sN) ∧
        (sN ≤ qnorm (orbit c k) ∨ k = maxIt) := by
  intro d
  induction d with
  | zero =>
    intro iN z hd hle hz hprev
    have hiN : iN = maxIt := by omega
    refine ⟨iN, le_refl _, hle, ?_, hprev, Or.inr hiN⟩
    rw [loopGo.eq_def]
    by_cases hq : qnorm z < sN
    · rw [if_pos hq, dif_neg (by omega : ¬ iN < maxIt),
        if_neg (by rw [← hz]; exact not_le.mpr hq), hz]
    · rw [if_neg hq, if_pos (by rw [← hz]; exact not_lt.mp hq), hz]
  | succ d ih =>
    intro iN z hd hle hz hprev
    rw [loopGo.eq_def]
    by_cases hq : qnorm z < sN
    · rw [if_pos hq]
      by_cases hlt : iN < maxIt
      · rw [dif_pos hlt]
        have hz' : step z c = orbit c (iN + 1) := by rw [hz]; rfl
        have hprev' : ∀ m, m < iN + 1 → qnorm (orbit c m) < sN := by
          intro m hm
          rcases Nat.lt_succ_iff_lt_or_eq.mp hm with h | h
          · exact hprev m h
          · rw [h, ← hz]; exact hq
        obtain ⟨k, hk1, hk2, hk3, hk4, hk5⟩ :=
          ih (iN + 1) (step z c) (by omega) hlt hz' hprev'
        exact ⟨k, by omega, hk2, hk3, hk4, hk5⟩
      · rw [dif_neg hlt]
        have hiN : iN = maxIt := by omega
        refine ⟨iN, le_refl _, hle, ?_, hprev, Or.inr hiN⟩
        rw [if_neg (by rw [← hz]; exact not_le.mpr hq), hz]
    · rw [if_neg hq]
      have hesc : sN ≤ qnorm (orbit c iN) := by rw [← hz]; exact not_lt.mp hq
      exact ⟨iN, le_refl _, hle, by rw [if_pos hesc, hz], hprev, Or.inl hesc⟩

/-- Characterization of the loop run of `computePixel` from its initial state
`iN = 0`, `z = c`. -/
theorem computeIter_char (sN : ℚ) (maxIt : ℕ) (c : ℚ × ℚ) :
    ∃ k, k ≤ maxIt ∧
      computeIter sN maxIt c =
        (if sN ≤ qnorm (orbit c k) then k else k + 1, orbit c k) ∧
      (∀ m, m < k → qnorm (orbit c m) < sN) ∧
      (sN ≤ qnorm (orbit c k) ∨ k = maxIt) := by
  obtain ⟨k, _, hk2, hk3, hk4, hk5⟩ :=
    loopGo_char sN maxIt c maxIt 0 c (by omega) (Nat.zero_le _) rfl
      (by intro m hm; omega)
  exact ⟨k, hk2, hk3, hk4, hk5⟩

/-- If the start point already fails the escape test, the loop exits at once
with `iN = 0` and `z = c`. -/
theorem computeIter_escape_now (sN : ℚ) (maxIt : ℕ) (c : ℚ × ℚ)
    (h : sN ≤ qnorm c) : computeIter sN maxIt c = (0, c) := by
  rw [computeIter, loopGo.eq_def, if_neg (not_lt.mpr h)]

/-- If no orbit point within the iteration budget reaches the escape norm, the
loop runs `maxIt` steps and exits with counter `maxIt + 1` (the postfix
increment fires once more on the final test). -/
theorem computeIter_interior (sN : ℚ) (maxIt : ℕ) (c : ℚ × ℚ)
    (h : ∀ m, m ≤ maxIt → qnorm (orbit c m) < sN) :
    computeIter sN maxIt c = (maxIt + 1, orbit c maxIt) := by
  obtain ⟨k, hk1, hk2, _, hk4⟩ := computeIter_char sN maxIt c
  have hkm : k = maxIt := by
    rcases hk4 with h4 | h4
    · exact absurd (h k hk1) (not_lt.mpr h4)
    · exact h4
  rw [hk2, hkm, if_neg (not_le.mpr (h maxIt (le_refl _)))]

/-- If the orbit first reaches the escape norm exactly at step `k ≤ maxIt`,
the loop exits with counter `k` and `z = orbit c k`. -/
theorem computeIter_escape_at (sN : ℚ) (maxIt : ℕ) (c : ℚ × ℚ) (k : ℕ)
    (hk : k ≤ maxIt) (hbefore : ∀ m, m < k → qnorm (orbit c m) < sN)
    (hesc : sN ≤ qnorm (orbit c k)) :
    computeIter sN maxIt c = (k, orbit c k) := by
  obtain ⟨k', hk'1, hk'2, hk'3, hk'4⟩ := computeIter_char sN maxIt c
  have hkk : k' = k := by
    rcases lt_trichotomy k' k with h | h | h
    · exact absurd hesc (by
        rcases hk'4 with h4 | h4
        · exact absurd h4 (not_le.mpr (hbefore k' h))
        · omega)
    · exact h
    · exact absurd hesc (not_le.mpr (hk'3 k h))
  rw [hk'2, hkk, if_pos hesc]

/-! ### Raster writes -/

/-- The raster after a sequence of `computePixel` writes: a pixel holds its
pure pixel value if it was written at least once, and its previous content
otherwise.  (Write order is irrelevant because every write to `(x, y)` stores
the same value `computePixel M x y`.) -/
theorem applyWrites_apply (M : Mandlebrot) (ws : List (ℤ × ℤ)) (R : Raster)
    (x y : ℤ) :
    applyWrites M ws R x y =
      if (x, y) ∈ ws then computePixel M x y else R x y := by
  induction ws generalizing R with
  | nil => simp [applyWrites]
  | cons p ws ih =>
    have hstep : applyWrites M (p :: ws) R =
        applyWrites M ws (rasterUpdate R p.1 p.2 (computePixel M p.1 p.2)) :=
      rfl
    rw [hstep, ih]
    by_cases hmem : (x, y) ∈ ws
    · rw [if_pos hmem, if_pos (List.mem_cons_of_mem p hmem)]
    · rw [if_neg hmem, rasterUpdate]
      by_cases hxy : x = p.1 ∧ y = p.2
      · have hp : (x, y) = p := by
          rcases hxy with ⟨h1, h2⟩
          rw [h1, h2]
      
        rw [if_pos hxy, if_pos (by rw [hp]; exact List.mem_cons_self p ws),
          hxy.1, hxy.2]
      · have : (x, y) ∉ p :: ws := by
          intro hcon
          rcases List.mem_cons.mp hcon with h | h
          · exact hxy ⟨congrArg Prod.fst h, congrArg Prod.snd h⟩
          · exact hmem h
        rw [if_neg hxy, if_neg this]
  
/-- Membership in the traversal of `computeArea (l, t, r, b)`. -/
theorem mem_writeList (l t r b x y : ℤ) :
    (x, y) ∈ writeList l t r b ↔ l ≤ x ∧ x < r ∧ t ≤ y ∧ y < b := by
  rw [writeList]
  constructor
  · intro h
    rw [List.mem_flatMap] at h
    obtain ⟨j, hj, h⟩ := h
    rw [List.mem_range] at hj
    rw [List.mem_map] at h
    obtain ⟨i, hi, heq⟩ := h
    rw [List.mem_range] at hi
    rw [Prod.mk.injEq] at heq
    omega
  · rintro ⟨h1, h2, h3, h4⟩
    rw [List.mem_flatMap]
    refine ⟨(y - t).toNat, ?_, ?_⟩
    · rw [List.mem_range]; omega
    · rw [List.mem_map]
      refine ⟨(x - l).toNat, ?_, ?_⟩
      · rw [List.mem_range]; omega
      · rw [Prod.mk.injEq]; omega

/-! ### The 100-block column partition -/

/-- Every column of a width-`w` raster lies in some block `k < 100`. -/
theorem blockStart_coverage (w x : ℕ) (hx : x < w) :
    ∃ k, k < 100 ∧ blockStart w k ≤ x ∧ x < blockStart w (k + 1) := by
  have hw : 0 < w := by omega
  refine ⟨(100 * x + 99) / w, ?_, ?_, ?_⟩
  · have h1 : 100 * x + 99 ≤ 100 * w - 1 := by omega
    have h2 : (100 * x + 99) / w ≤ (100 * w - 1) / w :=
      Nat.div_le_div_right h1
    have h3 : (100 * w - 1) / w < 100 :=
      (Nat.div_lt_iff_lt_mul hw).mpr (by omega)
    omega
  · rw [blockStart]
    have h1 : (100 * x + 99) / w * w ≤ 100 * x + 99 := Nat.div_mul_le_self _ _
    have h2 : (100 * x + 99) / w * w / 100 ≤ (100 * x + 99) / 100 :=
      Nat.div_le_div_right h1
    omega
  · rw [blockStart]
    have h1 : w * ((100 * x + 99) / w) + (100 * x + 99) % w = 100 * x + 99 :=
      Nat.div_add_mod _ _
    have h2 : (100 * x + 99) % w < w := Nat.mod_lt _ hw
    have h4 : w * ((100 * x + 99) / w) + w = ((100 * x + 99) / w + 1) * w := by
      ring
    have h5 : (x + 1) * 100 ≤ ((100 * x + 99) / w + 1) * w := by omega
    have h6 := (Nat.le_div_iff_mul_le (by omega : 0 < 100)).mpr h5
    omega

/-- A column of a block `k < 100` is a column of the raster. -/
theorem blockStart_mem_lt (w x k : ℕ) (hk : k < 100)
    (h1 : blockStart w k ≤ x) (h2 : x < blockStart w (k + 1)) : x < w := by
  have hle : blockStart w (k + 1) ≤ blockStart w 100 := by
    rw [blockStart, blockStart]
    exact Nat.div_le_div_right (Nat.mul_le_mul_right w (by omega))
  have h100 : blockStart w 100 = w := by
    rw [blockStart]
    exact Nat.mul_div_cancel_left w (by omega)
  omega

/-- No column lies in two distinct blocks. -/
theorem blockStart_unique (w x k k' : ℕ)
    (h1 : blockStart w k ≤ x) (h2 : x < blockStart w (k + 1))
    (h1' : blockStart w k' ≤ x) (h2' : x < blockStart w (k' + 1)) : k = k' := by
  rcases lt_trichotomy k k' with h | h | h
  · have : blockStart w (k + 1) ≤ blockStart w k' := by
      rw [blockStart, blockStart]
      exact Nat.div_le_div_right (Nat.mul_le_mul_right w (by omega))
    omega
  · exact h
  · have : blockStart w (k' + 1) ≤ blockStart w k := by
      rw [blockStart, blockStart]
      exact Nat.div_le_div_right (Nat.mul_le_mul_right w (by omega))
    omega

/-- C++ `int` division (truncation toward zero) is monotone in the dividend
for a positive divisor. -/
theorem tdiv_le_tdiv_of_le (a b c : ℤ) (hab : a ≤ b) (hc : 0 < c) :
    Int.tdiv a c ≤ Int.tdiv b c := by
  rcases le_or_lt 0 a with ha | ha
  · rw [Int.tdiv_eq_ediv ha (le_of_lt hc), Int.tdiv_eq_ediv (le_trans ha hab)
      (le_of_lt hc)]
    exact Int.ediv_le_ediv hc hab
  · rcases le_or_lt 0 b with hb | hb
    · have hna : Int.tdiv a c = -Int.tdiv (-a) c := by
        rw [← Int.neg_tdiv, neg_neg]
      have h1 : 0 ≤ Int.tdiv (-a) c := Int.tdiv_nonneg (by omega) (le_of_lt hc)
      have h2 : 0 ≤ Int.tdiv b c := Int.tdiv_nonneg hb (le_of_lt hc)
      omega
    · have hna : Int.tdiv a c = -Int.tdiv (-a) c := by
        rw [← Int.neg_tdiv, neg_neg]
      have hnb : Int.tdiv b c = -Int.tdiv (-b) c := by
        rw [← Int.neg_tdiv, neg_neg]
      have h1 : Int.tdiv (-b) c ≤ Int.tdiv (-a) c := by
        rw [Int.tdiv_eq_ediv (by omega) (le_of_lt hc),
          Int.tdiv_eq_ediv (by omega) (le_of_lt hc)]
        exact Int.ediv_le_ediv hc (by omega)
      omega

/-- The column bounds of block `k` of `computeMultiCore`, written with C++
`int` division, agree with `blockStart` on a nonnegative width. -/
theorem tdiv_blockStart (w k : ℕ) :
    Int.tdiv ((k : ℤ) * (w : ℤ)) 100 = (blockStart w k : ℤ) := by
  rw [blockStart, Int.ofNat_tdiv]
  push_cast
  rfl

/-- The columns of the 100 blocks of `computeMultiCore`, taken together, are
exactly the columns `0 ≤ x < w`, for any (possibly negative) `int` width. -/
theorem blockCols_iff (w x : ℤ) :
    (∃ k : ℕ, k < 100 ∧ Int.tdiv ((k : ℤ) * w) 100 ≤ x ∧
        x < Int.tdiv (((k : ℤ) + 1) * w) 100) ↔ 0 ≤ x ∧ x < w := by
  rcases le_or_lt 0 w with hw | hw
  · obtain ⟨n, rfl⟩ : ∃ n : ℕ, w = (n : ℤ) := ⟨w.toNat, by omega⟩
    constructor
    · rintro ⟨k, hk, hk1, hk2⟩
      have e1 : Int.tdiv ((k : ℤ) * (n : ℤ)) 100 = (blockStart n k : ℤ) :=
        tdiv_blockStart n k
      have e2 : Int.tdiv (((k : ℤ) + 1) * (n : ℤ)) 100 =
          (blockStart n (k + 1) : ℤ) := by
        have : ((k : ℤ) + 1) = ((k + 1 : ℕ) : ℤ) := by push_cast; ring
        rw [this, tdiv_blockStart n (k + 1)]
      rw [e1] at hk1
      rw [e2] at hk2
      have hx0 : 0 ≤ x := le_trans (by positivity) hk1
      obtain ⟨m, rfl⟩ : ∃ m : ℕ, x = (m : ℤ) := ⟨x.toNat, by omega⟩
      have hm : m < n := blockStart_mem_lt n m k hk (by exact_mod_cast hk1)
        (by exact_mod_cast hk2)
      exact ⟨hx0, by exact_mod_cast hm⟩
    · rintro ⟨hx0, hxw⟩
      obtain ⟨m, rfl⟩ : ∃ m : ℕ, x = (m : ℤ) := ⟨x.toNat, by omega⟩
      obtain ⟨k, hk, hk1, hk2⟩ := blockStart_coverage n m (by exact_mod_cast hxw)
      refine ⟨k, hk, ?_, ?_⟩
      · rw [tdiv_blockStart n k]
        exact_mod_cast hk1
      · have : ((k : ℤ) + 1) = ((k + 1 : ℕ) : ℤ) := by push_cast; ring
        rw [this, tdiv_blockStart n (k + 1)]
        exact_mod_cast hk2
  · constructor
    · rintro ⟨k, hk, hk1, hk2⟩
      have hmul : ((k : ℤ) + 1) * w ≤ (k : ℤ) * w := by nlinarith
      have := tdiv_le_tdiv_of_le _ _ 100 hmul (by omega)
      omega
    · rintro ⟨hx0, hxw⟩
      omega

/-- A pixel is written by `computeMultiCore` exactly when it is a pixel of the
raster. -/
theorem mem_multiCoreWrites (M : Mandlebrot) (x y : ℤ) :
    (x, y) ∈ multiCoreWrites M ↔
      0 ≤ x ∧ x < M.width ∧ 0 ≤ y ∧ y < M.height := by
  rw [multiCoreWrites, List.mem_flatMap]
  constructor
  · rintro ⟨k, hk, hmem⟩
    rw [List.mem_range] at hk
    rw [blockWrites, mem_writeList] at hmem
    obtain ⟨h1, h2, h3, h4⟩ := hmem
    have hcols := (blockCols_iff M.width x).mp ⟨k, hk, h1, h2⟩
    exact ⟨hcols.1, hcols.2, h3, h4⟩
  · rintro ⟨h1, h2, h3, h4⟩
    obtain ⟨k, hk, hk1, hk2⟩ := (blockCols_iff M.width x).mpr ⟨h1, h2⟩
    exact ⟨k, List.mem_range.mpr hk,
      by rw [blockWrites, mem_writeList]; exact ⟨hk1, hk2, h3, h4⟩⟩

/-- C1: for every set of rendering parameters, any execution of
`computeMultiCore` — any interleaving of the workers' writes in which each of
the 100 column blocks is computed by exactly one worker, i.e. any permutation
of the blocks' write sequences — produces exactly the same raster, pixel by
pixel, as `computeSingleCore`. -/
theorem claim1_multicore_matches_singlecore (M : Mandlebrot) (R : Raster)
    (ws : List (ℤ × ℤ)) (hperm : ws.Perm (multiCoreWrites M)) :
    applyWrites M ws R = computeSingleCore M R := by
  funext x y
  rw [applyWrites_apply, computeSingleCore, computeArea, applyWrites_apply]
  have hmem : (x, y) ∈ ws ↔ (x, y) ∈ writeList 0 0 M.width M.height := by
    rw [hperm.mem_iff, mem_multiCoreWrites, mem_writeList]
  by_cases h : (x, y) ∈ ws
  · rw [if_pos h, if_pos (hmem.mp h)]
  · rw [if_neg h, if_neg (fun hc => h (hmem.mpr hc))]

/-- Witness for C1 at a concrete 2×2 configuration, with the multi-core writes
executed in reversed order. -/
theorem claim1_witness :
    applyWrites (mandlebrotInit 1 0 1 2 (-1))
        ((multiCoreWrites (mandlebrotInit 1 0 1 2 (-1))).reverse)
        (fun _ _ => ⟨0, 0, 0⟩) =
      computeSingleCore (mandlebrotInit 1 0 1 2 (-1)) (fun _ _ => ⟨0, 0, 0⟩) :=
  claim1_multicore_matches_singlecore (mandlebrotInit 1 0 1 2 (-1)) _ _
    (List.reverse_perm _)

/-- C4: for every image width `w ≥ 0`, the 100 column blocks used by
`computeMultiCore` — block `k` spanning `[k*w/100, (k+1)*w/100)` under integer
division (the first conjunct identifies the C++ `int` expression with
`blockStart`) — partition `[0, w)` exactly: every column is in a block, every
block column is a raster column, and no column lies in two distinct blocks. -/
theorem claim4_blocks_partition (w : ℕ) :
    (∀ k : ℕ, Int.tdiv ((k : ℤ) * (w : ℤ)) 100 = (blockStart w k : ℤ)) ∧
    (∀ x, x < w →
      ∃ k, k < 100 ∧ blockStart w k ≤ x ∧ x < blockStart w (k + 1)) ∧
    (∀ x k, k < 100 → blockStart w k ≤ x → x < blockStart w (k + 1) →
      x < w) ∧
    (∀ x k k', blockStart w k ≤ x → x < blockStart w (k + 1) →
      blockStart w k' ≤ x → x < blockStart w (k' + 1) → k = k') :=
  ⟨fun k => tdiv_blockStart w k,
   fun x hx => blockStart_coverage w x hx,
   fun x k hk h1 h2 => blockStart_mem_lt w x k hk h1 h2,
   fun x k k' h1 h2 h1' h2' => blockStart_unique w x k k' h1 h2 h1' h2'⟩

/-- Witness for C4 at width 250, column 7 (block 3 holds it). -/
theorem claim4_witness :
    (∃ k, k < 100 ∧ blockStart 250 k ≤ 7 ∧ 7 < blockStart 250 (k + 1)) ∧
    Int.tdiv (((3 : ℕ) : ℤ) * ((250 : ℕ) : ℤ)) 100 =
      ((blockStart 250 3 : ℕ) : ℤ) :=
  ⟨(claim4_blocks_partition 250).2.1 7 (by decide),
   (claim4_blocks_partition 250).1 3⟩

/-! ### Per-pixel escape-time claims -/

/-- The orbit of the origin is constant. -/
theorem orbit_zero_pt (m : ℕ) : orbit (0, 0) m = (0, 0) := by
  induction m with
  | zero => rfl
  | succ m ih => rw [orbit_succ, ih]; norm_num [step, cmul]

/-- C2: for every pixel `(x, y)` of the raster, `computePixel` evaluates the
escape-time iteration of the reference definition: it forms
`c = (left + (right-left)*x/width, top + (bottom-top)*y/height)`, initializes
`z` to `c` (the orbit starts at `c`, not at `0`), repeatedly replaces `z` by
`z² + c`, and the loop exits at the first index `k` at which `|z|² ≥ stopNorm`
or the iteration budget `maxIterations` is exhausted — no earlier and no
later. -/
theorem claim2_escape_time_iteration (M : Mandlebrot) (x y : ℤ)
    (hx : 0 ≤ x ∧ x < M.width) (hy : 0 ≤ y ∧ y < M.height) :
    pixelC M x y =
      (M.left + (M.right - M.left) * (x : ℚ) / (M.width : ℚ),
       M.top + (M.bottom - M.top) * (y : ℚ) / (M.height : ℚ)) ∧
    orbit (pixelC M x y) 0 = pixelC M x y ∧
    (∀ n, orbit (pixelC M x y) (n + 1) =
      step (orbit (pixelC M x y) n) (pixelC M x y)) ∧
    ∃ k, k ≤ M.maxIterations ∧
      computeIter M.stopNorm M.maxIterations (pixelC M x y) =
        (if M.stopNorm ≤ qnorm (orbit (pixelC M x y) k) then k else k + 1,
         orbit (pixelC M x y) k) ∧
      (∀ m, m < k → qnorm (orbit (pixelC M x y) m) < M.stopNorm) ∧
      (M.stopNorm ≤ qnorm (orbit (pixelC M x y) k) ∨ k = M.maxIterations) :=
  ⟨rfl, rfl, fun _ => rfl,
   computeIter_char M.stopNorm M.maxIterations (pixelC M x y)⟩

/-- Witness for C2: pixel (0, 0) of a concrete 2×2 configuration. -/
theorem claim2_witness :
    ((0 : ℤ) ≤ 0 ∧ (0 : ℤ) < (mandlebrotInit 1 0 1 2 (-1)).width) ∧
    ∃ k, k ≤ (mandlebrotInit 1 0 1 2 (-1)).maxIterations ∧
      computeIter (mandlebrotInit 1 0 1 2 (-1)).stopNorm
          (mandlebrotInit 1 0 1 2 (-1)).maxIterations
          (pixelC (mandlebrotInit 1 0 1 2 (-1)) 0 0) =
        (if (mandlebrotInit 1 0 1 2 (-1)).stopNorm ≤
              qnorm (orbit (pixelC (mandlebrotInit 1 0 1 2 (-1)) 0 0) k)
         then k else k + 1,
         orbit (pixelC (mandlebrotInit 1 0 1 2 (-1)) 0 0) k) ∧
      (∀ m, m < k →
        qnorm (orbit (pixelC (mandlebrotInit 1 0 1 2 (-1)) 0 0) m) <
          (mandlebrotInit 1 0 1 2 (-1)).stopNorm) ∧
      ((mandlebrotInit 1 0 1 2 (-1)).stopNorm ≤
          qnorm (orbit (pixelC (mandlebrotInit 1 0 1 2 (-1)) 0 0) k) ∨
        k = (mandlebrotInit 1 0 1 2 (-1)).maxIterations) := by
  have hx : (0 : ℤ) ≤ 0 ∧ (0 : ℤ) < (mandlebrotInit 1 0 1 2 (-1)).width := by
    refine ⟨le_refl _, ?_⟩
    simp [mandlebrotInit, qtrunc]
  have hy : (0 : ℤ) ≤ 0 ∧ (0 : ℤ) < (mandlebrotInit 1 0 1 2 (-1)).height := by
    refine ⟨le_refl _, ?_⟩
    simp [mandlebrotInit, qtrunc]
  exact ⟨hx,
    (claim2_escape_time_iteration (mandlebrotInit 1 0 1 2 (-1)) 0 0 hx hy).2.2.2⟩

/-- C3 (amended): the loop counter `iN` of `computePixel` at loop exit lies in
`[0, maxIterations + 1]`; the upper bound `maxIterations + 1` is attained (see
the counterexample), so the claimed range `[0, maxIterations]` is too small by
one. -/
theorem claim3_exit_count_bounded (M : Mandlebrot) (x y : ℤ) :
    pixelExitCount M x y ≤ M.maxIterations + 1 := by
  obtain ⟨k, hk1, hk2, _, _⟩ :=
    computeIter_char M.stopNorm M.maxIterations (pixelC M x y)
  rw [pixelExitCount, hk2]
  by_cases h : M.stopNorm ≤ qnorm (orbit (pixelC M x y) k)
  · rw [if_pos h]; omega
  · rw [if_neg h]; omega

/-- C3 counterexample: for the configuration with viewport corner `c = 0`
(an interior point), the loop of `computePixel (0, 0)` exits with
`iN = maxIterations + 1 = 101`, outside the claimed range
`[0, maxIterations]`. -/
theorem claim3_counterexample :
    pixelExitCount (mandlebrotInit 1 0 0 1 (-1)) 0 0 =
      (mandlebrotInit 1 0 0 1 (-1)).maxIterations + 1 ∧
    ¬ pixelExitCount (mandlebrotInit 1 0 0 1 (-1)) 0 0 ≤
        (mandlebrotInit 1 0 0 1 (-1)).maxIterations := by
  have hpix : pixelC (mandlebrotInit 1 0 0 1 (-1)) 0 0 = (0, 0) := by
    simp [pixelC, mandlebrotInit]
  have hin : ∀ m, m ≤ 100 → qnorm (orbit ((0 : ℚ), (0 : ℚ)) m) < 400 := by
    intro m _
    rw [orbit_zero_pt]
    norm_num [qnorm]
  have hiter := computeIter_interior 400 100 (0, 0) hin
  have hcount : pixelExitCount (mandlebrotInit 1 0 0 1 (-1)) 0 0 = 101 := by
    rw [pixelExitCount, hpix]
    have hsN : (mandlebrotInit 1 0 0 1 (-1)).stopNorm = 400 := rfl
    have hmx : (mandlebrotInit 1 0 0 1 (-1)).maxIterations = 100 := rfl
    rw [hsN, hmx, hiter]
  constructor
  · rw [hcount]; rfl
  · rw [hcount]
    intro hcon
    have hmx : (mandlebrotInit 1 0 0 1 (-1)).maxIterations = 100 := rfl
    omega

/-- C6: a pixel whose orbit never reaches `stopNorm` within the iteration
budget (an interior pixel) is assigned exactly the configured body color. -/
theorem claim6_interior_body_color (M : Mandlebrot) (x y : ℤ)
    (h : ∀ m, m ≤ M.maxIterations →
      qnorm (orbit (pixelC M x y) m) < M.stopNorm) :
    computePixel M x y = M.bodyColor := by
  rw [computePixel, computeIter_interior _ _ _ h]
  rw [if_pos (by omega : M.maxIterations ≤ (M.maxIterations + 1,
    orbit (pixelC M x y) M.maxIterations).1)]

/-- Witness for C6: pixel (0, 0) at viewport corner `c = 0` stays bounded
forever and receives the body color. -/
theorem claim6_witness :
    computePixel (mandlebrotInit 1 0 0 1 (-1)) 0 0 =
      (mandlebrotInit 1 0 0 1 (-1)).bodyColor :=
  claim6_interior_body_color (mandlebrotInit 1 0 0 1 (-1)) 0 0 (by
    intro m _
    have hpix : pixelC (mandlebrotInit 1 0 0 1 (-1)) 0 0 = (0, 0) := by
      simp [pixelC, mandlebrotInit]
    rw [hpix, orbit_zero_pt]
    norm_num [qnorm, mandlebrotInit])

/-- C10: a pixel whose orbit first reaches `stopNorm` exactly at step
`maxIterations` exits the loop by the escape test with the counter already
equal to `maxIterations`, and is assigned the body color, not a gradient
color. -/
theorem claim10_escape_at_max_body_color (M : Mandlebrot) (x y : ℤ)
    (hbefore : ∀ m, m < M.maxIterations →
      qnorm (orbit (pixelC M x y) m) < M.stopNorm)
    (hesc : M.stopNorm ≤ qnorm (orbit (pixelC M x y) M.maxIterations)) :
    computePixel M x y = M.bodyColor := by
  rw [computePixel,
    computeIter_escape_at _ _ _ M.maxIterations (le_refl _) hbefore hesc]
  rw [if_pos (le_refl _)]

/-- Witness for C10: a configuration with `maxIterations = 1`, `stopNorm = 5`
and `c = (2, 0)`: `|c|² = 4 < 5` but `|c² + c|² = 36 ≥ 5`, so the orbit
escapes exactly at step `maxIterations` and the pixel gets the body color. -/
theorem claim10_witness :
    computePixel
        ⟨1, 1, [⟨1, 2, 3⟩, ⟨4, 5, 6⟩], ⟨9, 9, 9⟩, 2, 3, 0, -1, 1, 5, 0, 0⟩
        0 0 =
      Mandlebrot.bodyColor
        ⟨1, 1, [⟨1, 2, 3⟩, ⟨4, 5, 6⟩], ⟨9, 9, 9⟩, 2, 3, 0, -1, 1, 5, 0, 0⟩ := by
  apply claim10_escape_at_max_body_color
  · intro m hm
    have hm0 : m = 0 := by
      have : (Mandlebrot.maxIterations
        ⟨1, 1, [⟨1, 2, 3⟩, ⟨4, 5, 6⟩], ⟨9, 9, 9⟩, 2, 3, 0, -1, 1, 5, 0, 0⟩) = 1 :=
        rfl
      omega
    rw [hm0]
    norm_num [pixelC, orbit, qnorm]
  · norm_num [pixelC, orbit, qnorm, step, cmul]

/-! ### The smoothing coefficients -/

/-- In exact arithmetic the slope coefficient of the constructor is exactly 1:
`0.5 * log2 (norm (step (1e5, 0))) = 0.5 * log2 (1e20) = 10 * log2 10` and
`log2 (1e5) = 5 * log2 10`, so the ratio is 2 and `mSmooth = 1 / log2 2 = 1`. -/
theorem mSmoothVal_eq_one : mSmoothVal = 1 := by
  rw [mSmoothVal]
  have hq : ((qnorm (step (100000, 0) (0, 0)) : ℚ) : ℝ) = (10 : ℝ) ^ 20 := by
    norm_num [qnorm, step, cmul]
  have h5 : (100000 : ℝ) = (10 : ℝ) ^ 5 := by norm_num
  rw [hq, h5, log2, log2, log2, Real.logb_pow, Real.logb_pow]
  have hl : 0 < Real.logb 2 10 := Real.logb_pos (by norm_num) (by norm_num)
  have harg : 0.5 * ((20 : ℕ) * Real.logb 2 10) / ((5 : ℕ) * Real.logb 2 10) =
      2 := by
    rw [div_eq_iff (by positivity)]
    push_cast
    ring
  rw [harg, Real.logb_self_eq_one (by norm_num)]
  norm_num

/-- With `mSmooth = 1`, the intercept is `log2 (0.5 * log2 400)`. -/
theorem bSmoothVal_eq : bSmoothVal = Real.logb 2 (0.5 * Real.logb 2 400) := by
  rw [bSmoothVal, mSmoothVal_eq_one, mul_one, log2, log2]
  norm_num

/-- `1 ≤ 0.5 * log2 400 ≤ 8`: the inner argument of the intercept. -/
theorem half_log2_400_bounds :
    1 ≤ 0.5 * Real.logb 2 400 ∧ 0.5 * Real.logb 2 400 ≤ 8 := by
  have h4 : Real.logb 2 ((2 : ℝ) ^ (2 : ℕ)) = 2 := by
    rw [Real.logb_pow, Real.logb_self_eq_one (by norm_num)]
    norm_num
  have h16 : Real.logb 2 ((2 : ℝ) ^ (16 : ℕ)) = 16 := by
    rw [Real.logb_pow, Real.logb_self_eq_one (by norm_num)]
    norm_num
  have hlow : (2 : ℝ) ≤ Real.logb 2 400 :=
    calc (2 : ℝ) = Real.logb 2 ((2 : ℝ) ^ (2 : ℕ)) := h4.symm
      _ ≤ Real.logb 2 400 :=
        Real.logb_le_logb_of_le (by norm_num) (by norm_num) (by norm_num)
  have hhigh : Real.logb 2 400 ≤ 16 :=
    calc Real.logb 2 400 ≤ Real.logb 2 ((2 : ℝ) ^ (16 : ℕ)) :=
        Real.logb_le_logb_of_le (by norm_num) (by norm_num) (by norm_num)
      _ = 16 := h16
  constructor <;> linarith

/-- `0 ≤ bSmooth ≤ 3` for the constructor's coefficients. -/
theorem bSmoothVal_bounds : 0 ≤ bSmoothVal ∧ bSmoothVal ≤ 3 := by
  rw [bSmoothVal_eq]
  obtain ⟨hlow, hhigh⟩ := half_log2_400_bounds
  constructor
  · exact Real.logb_nonneg (by norm_num) hlow
  · have h8 : Real.logb 2 ((2 : ℝ) ^ (3 : ℕ)) = 3 := by
      rw [Real.logb_pow, Real.logb_self_eq_one (by norm_num)]
      norm_num
    calc Real.logb 2 (0.5 * Real.logb 2 400)
        ≤ Real.logb 2 ((2 : ℝ) ^ (3 : ℕ)) :=
          Real.logb_le_logb_of_le (by norm_num) (by linarith) (by
            norm_num
            linarith)
      _ = 3 := h8

/-- The gradient index of the escaped branch: `iC + 1 < colorList.length`
always holds (the exponential-saturating transform keeps `nC` strictly below
`stopCount - 1`), and `iC` is nonnegative whenever `nC` is. -/
theorem escIC_bounds (M : Mandlebrot) (iN : ℕ) (z : ℚ × ℚ)
    (h2 : 2 ≤ M.colorList.length) :
    escIC M iN z + 1 < (M.colorList.length : ℤ) ∧
    (0 ≤ escNC M iN z → 0 ≤ escIC M iN z) := by
  have hexp : 0 < Real.exp (-0.05 * escFN M iN z) := Real.exp_pos _
  have hlen : (2 : ℝ) ≤ (M.colorList.length : ℝ) := by exact_mod_cast h2
  have hnC : escNC M iN z < (M.colorList.length : ℝ) - 1 := by
    rw [escNC]
    have h1 : 1 - Real.exp (-0.05 * escFN M iN z) < 1 := by linarith
    have h2' : (0 : ℝ) < (M.colorList.length : ℝ) - 1 := by linarith
    calc (1 - Real.exp (-0.05 * escFN M iN z)) *
          ((M.colorList.length : ℝ) - 1)
        < 1 * ((M.colorList.length : ℝ) - 1) :=
          mul_lt_mul_of_pos_right h1 h2'
      _ = (M.colorList.length : ℝ) - 1 := one_mul _
  constructor
  · rw [escIC, rtrunc]
    by_cases h0 : 0 ≤ escNC M iN z
    · rw [if_pos h0]
      have hfl : ⌊escNC M iN z⌋ < (M.colorList.length : ℤ) - 1 := by
        rw [Int.floor_lt]
        push_cast
        exact hnC
      omega
    · rw [if_neg h0]
      push_neg at h0
      have hgen : 0 ≤ ⌊-escNC M iN z⌋ := Int.floor_nonneg.mpr (by linarith)
      omega
  · intro h0
    rw [escIC, rtrunc, if_pos h0]
    exact Int.floor_nonneg.mpr h0

/-- Pixel `(0, 0)` always maps to the viewport corner `(left, top)`. -/
theorem pixelC_zero (M : Mandlebrot) : pixelC M 0 0 = (M.left, M.top) := by
  simp [pixelC]

/-- C5 (amended): for every escaped pixel and every gradient with at least 2
stops, the index `iC = unsigned (nC)` satisfies `iC + 1 < stopCount`; the
claimed consequence that only existing stops `colorList[iC]`,
`colorList[iC+1]` are read additionally needs `iC ≥ 0`, which holds whenever
`nC ≥ 0` but fails for escaped pixels with `nC < 0` (see the
counterexample). -/
theorem claim5_index_bounds (M : Mandlebrot) (x y : ℤ)
    (h2 : 2 ≤ M.colorList.length)
    (hesc : (computeIter M.stopNorm M.maxIterations (pixelC M x y)).1 <
      M.maxIterations) :
    escIC M (computeIter M.stopNorm M.maxIterations (pixelC M x y)).1
        (computeIter M.stopNorm M.maxIterations (pixelC M x y)).2 + 1 <
      (M.colorList.length : ℤ) ∧
    (0 ≤ escNC M (computeIter M.stopNorm M.maxIterations (pixelC M x y)).1
        (computeIter M.stopNorm M.maxIterations (pixelC M x y)).2 →
      0 ≤ escIC M (computeIter M.stopNorm M.maxIterations (pixelC M x y)).1
        (computeIter M.stopNorm M.maxIterations (pixelC M x y)).2) :=
  escIC_bounds M _ _ h2

/-- Witness for C5: the two-stop configuration with `c = (21, 0)`, which
escapes at once (`|c|² = 441 ≥ 400`). -/
theorem claim5_witness :
    escIC escapedTwoStop
        (computeIter escapedTwoStop.stopNorm escapedTwoStop.maxIterations
          (pixelC escapedTwoStop 0 0)).1
        (computeIter escapedTwoStop.stopNorm escapedTwoStop.maxIterations
          (pixelC escapedTwoStop 0 0)).2 + 1 <
      (escapedTwoStop.colorList.length : ℤ) :=
  (claim5_index_bounds escapedTwoStop 0 0
    (by norm_num [escapedTwoStop])
    (by
      rw [pixelC_zero]
      have hesc : escapedTwoStop.stopNorm ≤
          qnorm (escapedTwoStop.left, escapedTwoStop.top) := by
        show (400 : ℚ) ≤ qnorm (21, 0)
        norm_num [qnorm]
      rw [computeIter_escape_now _ _ _ hesc]
      show (0 : ℕ) < 100
      norm_num)).1

/-- The squared norm of the far viewport corner. -/
theorem farViewport_qnorm :
    qnorm (farViewport.left, farViewport.top) = (2 : ℚ) ^ 16777216 := by
  show (2 : ℚ) ^ 8388608 * (2 : ℚ) ^ 8388608 + 0 * 0 = (2 : ℚ) ^ 16777216
  rw [zero_mul, add_zero, ← pow_add]

/-- C5 counterexample: pixel `(0, 0)` of `farViewport` escapes immediately
and the gradient has exactly 2 stops, yet the normalized position satisfies
`nC ≤ -1`, so the conversion `unsigned iC = unsigned (nC)` is applied to a
value below `-1` (undefined behavior in C++; truncation toward zero yields the
negative index `iC < 0`): the interpolation does not read only existing
gradient stops, contradicting the claim. -/
theorem claim5_counterexample :
    2 ≤ farViewport.colorList.length ∧
    (computeIter farViewport.stopNorm farViewport.maxIterations
      (pixelC farViewport 0 0)).1 < farViewport.maxIterations ∧
    escNC farViewport
        (computeIter farViewport.stopNorm farViewport.maxIterations
          (pixelC farViewport 0 0)).1
        (computeIter farViewport.stopNorm farViewport.maxIterations
          (pixelC farViewport 0 0)).2 ≤ -1 ∧
    escIC farViewport
        (computeIter farViewport.stopNorm farViewport.maxIterations
          (pixelC farViewport 0 0)).1
        (computeIter farViewport.stopNorm farViewport.maxIterations
          (pixelC farViewport 0 0)).2 < 0 := by
  have hq : qnorm (farViewport.left, farViewport.top) = (2 : ℚ) ^ 16777216 :=
    farViewport_qnorm
  have h400 : farViewport.stopNorm ≤
      qnorm (farViewport.left, farViewport.top) := by
    rw [hq]
    show (400 : ℚ) ≤ 2 ^ 16777216
    calc (400 : ℚ) ≤ 2 ^ 9 := by norm_num
      _ ≤ 2 ^ 16777216 := pow_le_pow_right₀ (by norm_num) (by norm_num)
  have hiter : computeIter farViewport.stopNorm farViewport.maxIterations
      (pixelC farViewport 0 0) = (0, (farViewport.left, farViewport.top)) := by
    rw [pixelC_zero]
    exact computeIter_escape_now _ _ _ h400
  have hfn : escFN farViewport 0 (farViewport.left, farViewport.top) ≤
      -20 := by
    rw [escFN, hq]
    have hms : farViewport.mSmooth = 1 := mSmoothVal_eq_one
    have hbs : farViewport.bSmooth = bSmoothVal := rfl
    have hcast : (((2 : ℚ) ^ 16777216 : ℚ) : ℝ) = (2 : ℝ) ^ (16777216 : ℕ) := by
      push_cast
      rfl
    rw [hms, hbs, hcast, one_mul]
    have hl1 : log2 ((2 : ℝ) ^ (16777216 : ℕ)) = 16777216 := by
      rw [log2, Real.logb_pow, Real.logb_self_eq_one (by norm_num)]
      norm_num
    rw [hl1]
    have h05 : (0.5 : ℝ) * 16777216 = (2 : ℝ) ^ (23 : ℕ) := by norm_num
    rw [h05]
    have hl2 : log2 ((2 : ℝ) ^ (23 : ℕ)) = 23 := by
      rw [log2, Real.logb_pow, Real.logb_self_eq_one (by norm_num)]
      norm_num
    rw [hl2]
    have hb3 := bSmoothVal_bounds.2
    push_cast
    linarith
  have hexp : (2 : ℝ) ≤
      Real.exp (-0.05 * escFN farViewport 0
        (farViewport.left, farViewport.top)) := by
    have h1 : (1 : ℝ) ≤ -0.05 * escFN farViewport 0
        (farViewport.left, farViewport.top) := by linarith
    calc (2 : ℝ) = 1 + 1 := by norm_num
      _ ≤ Real.exp 1 := by
        have := Real.add_one_le_exp 1
        linarith
      _ ≤ Real.exp (-0.05 * escFN farViewport 0
          (farViewport.left, farViewport.top)) := Real.exp_le_exp.mpr h1
  have hlen : ((farViewport.colorList.length : ℝ) - 1) = 1 := by
    show ((2 : ℕ) : ℝ) - 1 = 1
    norm_num
  have hnc : escNC farViewport 0 (farViewport.left, farViewport.top) ≤ -1 := by
    rw [escNC, hlen, mul_one]
    linarith
  have hic : escIC farViewport 0 (farViewport.left, farViewport.top) < 0 := by
    rw [escIC, rtrunc, if_neg (by linarith : ¬ (0 : ℝ) ≤
      escNC farViewport 0 (farViewport.left, farViewport.top))]
    have h1 : (1 : ℤ) ≤
        ⌊-escNC farViewport 0 (farViewport.left, farViewport.top)⌋ :=
      Int.le_floor.mpr (by push_cast; linarith)
    omega
  refine ⟨le_refl 2, ?_, ?_, ?_⟩
  · rw [hiter]
    show (0 : ℕ) < 100
    norm_num
  · rw [hiter]
    exact hnc
  · rw [hiter]
    exact hic

/-- C8 counterexample: a configuration producing a zero-size raster
(resolution 0) constructs successfully — the constructor returns a state with
`width = height = 0` and no configuration error is raised, contradicting the
claim that construction fails before allocation. -/
theorem claim8_counterexample :
    mandlebrotInitE 0 0 0 0 0 = .ok (mandlebrotInit 0 0 0 0 0) ∧
    (mandlebrotInit 0 0 0 0 0).width = 0 ∧
    (mandlebrotInit 0 0 0 0 0).height = 0 := by
  refine ⟨rfl, ?_, ?_⟩
  · show qtrunc (0 * (0 - 0)) = 0
    norm_num [qtrunc]
  · show qtrunc (0 * (0 - 0)) = 0
    norm_num [qtrunc]

/-- C8 (amended): the constructor performs no validation at all: construction
always succeeds, and zero-size viewport/resolution parameters simply produce a
state whose raster dimensions are the truncated products (zero in the
degenerate case), never a configuration error. -/
theorem claim8_no_validation (res l t r b : ℚ) :
    mandlebrotInitE res l t r b = .ok (mandlebrotInit res l t r b) ∧
    (mandlebrotInit res l t r b).width = qtrunc (res * (r - l)) ∧
    (mandlebrotInit res l t r b).height = qtrunc (res * (t - b)) :=
  ⟨rfl, rfl, rfl⟩

/-- C9 counterexample: for `resolution = 1`, `left = 3/2`, `right = 0` the
width product is `-3/2`; the constructor's conversion `int(double)` truncates
toward zero, giving `-1`, not `floor (-3/2) = -2` as claimed. -/
theorem claim9_counterexample :
    (mandlebrotInit 1 (3 / 2) 0 0 (-1)).width ≠ ⌊(1 : ℚ) * (0 - 3 / 2)⌋ := by
  show qtrunc ((1 : ℚ) * (0 - 3 / 2)) ≠ ⌊(1 : ℚ) * (0 - 3 / 2)⌋
  have harg : (1 : ℚ) * (0 - 3 / 2) = -(3 / 2) := by norm_num
  rw [harg]
  have h1 : ⌊(3 / 2 : ℚ)⌋ = 1 := by
    rw [Int.floor_eq_iff]
    norm_num
  have h2 : ⌊(-(3 / 2) : ℚ)⌋ = -2 := by
    rw [Int.floor_eq_iff]
    norm_num
  rw [qtrunc, if_neg (by norm_num), neg_neg, h1, h2]
  norm_num

/-- C9 (amended): the constructor sizes the raster to the truncation toward
zero of `resolution * (right - left)` by `resolution * (top - bottom)`; this
equals the claimed floor whenever the products are nonnegative, and for the
hardcoded parameters `(500, -2.7, 1.25, 1.7, -1.25)` the raster is exactly
2200 × 1250. -/
theorem claim9_dimensions :
    (mandlebrotInit 500 (-27 / 10) (5 / 4) (17 / 10) (-5 / 4)).width = 2200 ∧
    (mandlebrotInit 500 (-27 / 10) (5 / 4) (17 / 10) (-5 / 4)).height =
      1250 ∧
    (∀ res l t r b : ℚ,
      (mandlebrotInit res l t r b).width = qtrunc (res * (r - l)) ∧
      (mandlebrotInit res l t r b).height = qtrunc (res * (t - b))) ∧
    (∀ res l t r b : ℚ, 0 ≤ res * (r - l) → 0 ≤ res * (t - b) →
      (mandlebrotInit res l t r b).width = ⌊res * (r - l)⌋ ∧
      (mandlebrotInit res l t r b).height = ⌊res * (t - b)⌋) := by
  refine ⟨?_, ?_, fun res l t r b => ⟨rfl, rfl⟩, fun res l t r b h1 h2 =>
    ⟨?_, ?_⟩⟩
  · show qtrunc (500 * (17 / 10 - -27 / 10)) = 2200
    have harg : (500 : ℚ) * (17 / 10 - -27 / 10) = 2200 := by norm_num
    rw [harg, qtrunc, if_pos (by norm_num)]
    have : ((2200 : ℤ) : ℚ) = (2200 : ℚ) := by norm_num
    rw [← this, Int.floor_intCast]
  · show qtrunc (500 * (5 / 4 - -5 / 4)) = 1250
    have harg : (500 : ℚ) * (5 / 4 - -5 / 4) = 1250 := by norm_num
    rw [harg, qtrunc, if_pos (by norm_num)]
    have : ((1250 : ℤ) : ℚ) = (1250 : ℚ) := by norm_num
    rw [← this, Int.floor_intCast]
  · show qtrunc (res * (r - l)) = ⌊res * (r - l)⌋
    rw [qtrunc, if_pos h1]
  · show qtrunc (res * (t - b)) = ⌊res * (t - b)⌋
    rw [qtrunc, if_pos h2]

/-- Witness for C9: the floor formula at a nonnegative-product instance. -/
theorem claim9_witness :
    (mandlebrotInit 1 0 1 2 (-1)).width = ⌊(1 : ℚ) * (2 - 0)⌋ ∧
    (mandlebrotInit 1 0 1 2 (-1)).height = ⌊(1 : ℚ) * (1 - -1)⌋ :=
  claim9_dimensions.2.2.2 1 0 1 2 (-1) (by norm_num) (by norm_num)

/-! ### Continuity of the cosine blend -/

theorem mixOf_zero : mixOf 0 = 1 := by
  rw [mixOf, mul_zero, Real.cos_zero]
  norm_num

theorem mixOf_one : mixOf 1 = 0 := by
  rw [mixOf, mul_one, Real.cos_pi]
  norm_num

theorem mixOf_continuous : Continuous mixOf := by
  have h : mixOf = fun fC => 0.5 * (1 + Real.cos (Real.pi * fC)) := rfl
  rw [h]
  exact continuous_const.mul (continuous_const.add
    (Real.continuous_cos.comp (continuous_const.mul continuous_id)))

theorem rtrunc_natCast (k : ℕ) : rtrunc ((k : ℕ) : ℝ) = (k : ℤ) := by
  rw [rtrunc, if_pos (by positivity)]
  exact Int.floor_natCast k

/-- C7: the cosine-blend interpolation is continuous across the integer
boundaries of the normalized intensity: for a gradient with at least two stops
and an interior integer boundary `k` (`0 < k < stopCount - 1`), the blended
channel at `n = k` equals `colorList[k]`Ꞌs channel (iC = k, fractional part 0,
mix = 1), and as `n` approaches `k` from below (iC = k-1, fractional part → 1,
mix → 0) the blended channel tends to that same value — no discontinuity. -/
theorem claim7_blend_continuity (L : List Color) (ch : Color → ℕ) (k : ℕ)
    (hk0 : 0 < k) (hk1 : k + 1 < L.length) :
    blendCh L ch ((k : ℕ) : ℝ) = (ch (L.getD k ⟨0, 0, 0⟩) : ℝ) ∧
    Filter.Tendsto (blendCh L ch)
      (nhdsWithin ((k : ℕ) : ℝ) (Set.Iio ((k : ℕ) : ℝ)))
      (nhds (blendCh L ch ((k : ℕ) : ℝ))) := by
  have hval : blendCh L ch ((k : ℕ) : ℝ) = (ch (L.getD k ⟨0, 0, 0⟩) : ℝ) := by
    rw [blendCh, rtrunc_natCast, Int.toNat_natCast]
    rw [show (((k : ℕ) : ℤ) : ℝ) = ((k : ℕ) : ℝ) by push_cast; rfl]
    rw [sub_self, mixOf_zero]
    ring
  refine ⟨hval, ?_⟩
  have hk1r : (1 : ℝ) ≤ (k : ℝ) := by exact_mod_cast hk0
  have heq : ∀ n ∈ Set.Ioo ((k : ℝ) - 1) ((k : ℕ) : ℝ),
      blendCh L ch n =
        (ch (L.getD (k - 1) ⟨0, 0, 0⟩) : ℝ) * mixOf (n - ((k : ℝ) - 1)) +
          (ch (L.getD k ⟨0, 0, 0⟩) : ℝ) *
            (1 - mixOf (n - ((k : ℝ) - 1))) := by
    intro n hn
    obtain ⟨hn1, hn2⟩ := hn
    have h0n : (0 : ℝ) ≤ n := by linarith
    have hfl : ⌊n⌋ = (k : ℤ) - 1 := by
      rw [Int.floor_eq_iff]
      push_cast
      constructor <;> linarith
    have htr : rtrunc n = (k : ℤ) - 1 := by rw [rtrunc, if_pos h0n, hfl]
    rw [blendCh, htr]
    have htn : ((k : ℤ) - 1).toNat = k - 1 := by omega
    have hc : (((k : ℤ) - 1 : ℤ) : ℝ) = (k : ℝ) - 1 := by push_cast; ring
    have hk1n : k - 1 + 1 = k := by omega
    rw [htn, hc, hk1n]
  have hcont : Continuous (fun n : ℝ =>
      (ch (L.getD (k - 1) ⟨0, 0, 0⟩) : ℝ) * mixOf (n - ((k : ℝ) - 1)) +
        (ch (L.getD k ⟨0, 0, 0⟩) : ℝ) *
          (1 - mixOf (n - ((k : ℝ) - 1)))) := by
    apply Continuous.add
    · exact continuous_const.mul
        (mixOf_continuous.comp (continuous_id.sub continuous_const))
    · exact continuous_const.mul (continuous_const.sub
        (mixOf_continuous.comp (continuous_id.sub continuous_const)))
  have hatk : (fun n : ℝ =>
      (ch (L.getD (k - 1) ⟨0, 0, 0⟩) : ℝ) * mixOf (n - ((k : ℝ) - 1)) +
        (ch (L.getD k ⟨0, 0, 0⟩) : ℝ) *
          (1 - mixOf (n - ((k : ℝ) - 1)))) ((k : ℕ) : ℝ) =
      blendCh L ch ((k : ℕ) : ℝ) := by
    rw [hval]
    show (ch (L.getD (k - 1) ⟨0, 0, 0⟩) : ℝ) *
        mixOf (((k : ℕ) : ℝ) - ((k : ℝ) - 1)) +
        (ch (L.getD k ⟨0, 0, 0⟩) : ℝ) *
          (1 - mixOf (((k : ℕ) : ℝ) - ((k : ℝ) - 1))) = _
    rw [show ((k : ℕ) : ℝ) - ((k : ℝ) - 1) = 1 by ring, mixOf_one]
    ring
  have hg : Filter.Tendsto (fun n : ℝ =>
      (ch (L.getD (k - 1) ⟨0, 0, 0⟩) : ℝ) * mixOf (n - ((k : ℝ) - 1)) +
        (ch (L.getD k ⟨0, 0, 0⟩) : ℝ) *
          (1 - mixOf (n - ((k : ℝ) - 1))))
      (nhds ((k : ℕ) : ℝ)) (nhds (blendCh L ch ((k : ℕ) : ℝ))) := by
    rw [← hatk]
    exact hcont.tendsto ((k : ℕ) : ℝ)
  apply Filter.Tendsto.congr' _ (hg.mono_left nhdsWithin_le_nhds)
  have hmem : Set.Ioo ((k : ℝ) - 1) ((k : ℕ) : ℝ) ∈
      nhdsWithin ((k : ℕ) : ℝ) (Set.Iio ((k : ℕ) : ℝ)) :=
    Ioo_mem_nhdsWithin_Iio ⟨by linarith, le_refl _⟩
  exact Filter.eventuallyEq_of_mem hmem (fun n hn => (heq n hn).symm)

/-- Witness for C7: a 3-stop gradient at the interior boundary `k = 1`, red
channel. -/
theorem claim7_witness :
    blendCh ([⟨0, 0, 0⟩, ⟨10, 20, 30⟩, ⟨200, 100, 50⟩] : List Color)
        Color.red ((1 : ℕ) : ℝ) =
      (Color.red (([⟨0, 0, 0⟩, ⟨10, 20, 30⟩, ⟨200, 100, 50⟩] :
          List Color).getD 1 ⟨0, 0, 0⟩) : ℝ) ∧
    Filter.Tendsto
      (blendCh ([⟨0, 0, 0⟩, ⟨10, 20, 30⟩, ⟨200, 100, 50⟩] : List Color)
        Color.red)
      (nhdsWithin ((1 : ℕ) : ℝ) (Set.Iio ((1 : ℕ) : ℝ)))
      (nhds (blendCh ([⟨0, 0, 0⟩, ⟨10, 20, 30⟩, ⟨200, 100, 50⟩] : List Color)
        Color.red ((1 : ℕ) : ℝ))) :=
  claim7_blend_continuity ([⟨0, 0, 0⟩, ⟨10, 20, 30⟩, ⟨200, 100, 50⟩] :
    List Color) Color.red 1 (by norm_num) (by norm_num)
